import Mathlib

/-!
A verification development for the `austen` scoped-telemetry logger
(`austen/telemetry.py`) and its JSON numeric encoder
(`austen/encoders/numpy.py`).

The Python code is shallowly embedded: the logger's entry dictionary is an
insertion-ordered association list (Python dicts preserve insertion order),
wall-clock readings and elapsed times are inputs of the model (the code only
stores them), and the fallible JSON encoder hook returns `Except`.
-/

namespace Austen

/-! ### Decimal rendering, mirroring Python `str(i)` for a natural number

`natDigitsAux` peels least-significant digits with fuel (fuel `n` suffices
for input `n`); `natToString n` is the usual decimal string. -/

def natDigitsAux : Nat → Nat → List Nat
  | _, 0 => []
  | 0, _ + 1 => []
  | fuel + 1, n + 1 => ((n + 1) % 10) :: natDigitsAux fuel ((n + 1) / 10)

/-- Least-significant-first decimal digits of `n` (empty for `0`). -/
def natDigits (n : Nat) : List Nat := natDigitsAux n n

def digitChar (d : Nat) : Char := Char.ofNat (48 + d)

/-- Decimal string of a natural number, as Python `str(i)` renders it. -/
def natToString (n : Nat) : String :=
  if n = 0 then "0" else String.mk ((natDigits n).reverse.map digitChar)

theorem natDigitsAux_stable (n : Nat) :
    ∀ fuel, n ≤ fuel → natDigitsAux fuel n = natDigits n := by
  induction n using Nat.strong_induction_on with
  | _ n ih =>
    intro fuel hf
    match n, fuel with
    | 0, fuel => cases fuel <;> rfl
    | n + 1, fuel + 1 =>
      show ((n + 1) % 10) :: natDigitsAux fuel ((n + 1) / 10) = _
      have hq : (n + 1) / 10 < n + 1 := Nat.div_lt_self (Nat.succ_pos n) (by omega)
      have h1 : natDigitsAux fuel ((n + 1) / 10) = natDigits ((n + 1) / 10) :=
        ih _ hq _ (by omega)
      have h2 : natDigitsAux n ((n + 1) / 10) = natDigits ((n + 1) / 10) :=
        ih _ hq _ (by omega)
      show _ = natDigitsAux (n + 1) (n + 1)
      rw [h1]
      show _ = ((n + 1) % 10) :: natDigitsAux n ((n + 1) / 10)
      rw [h2]

theorem natDigits_eq (n : Nat) (h : 0 < n) :
    natDigits n = n % 10 :: natDigits (n / 10) := by
  match n, h with
  | n + 1, _ =>
    show ((n + 1) % 10) :: natDigitsAux n ((n + 1) / 10) = _
    rw [natDigitsAux_stable ((n + 1) / 10) n
      (by have := Nat.div_lt_self (Nat.succ_pos n) (show 1 < 10 by omega); omega)]

theorem natDigits_zero : natDigits 0 = [] := rfl

theorem natDigits_all_lt (n : Nat) : ∀ d ∈ natDigits n, d < 10 := by
  induction n using Nat.strong_induction_on with
  | _ n ih =>
    match n with
    | 0 => intro d hd; simp [natDigits_zero] at hd
    | n + 1 =>
      rw [natDigits_eq (n + 1) (Nat.succ_pos n)]
      intro d hd
      rcases List.mem_cons.mp hd with h | h
      · subst h; exact Nat.mod_lt _ (by omega)
      · exact ih ((n + 1) / 10)
          (Nat.div_lt_self (Nat.succ_pos n) (by omega)) d h

/-- Value of a least-significant-first digit list. -/
def digitsVal : List Nat → Nat
  | [] => 0
  | d :: ds => d + 10 * digitsVal ds

theorem digitsVal_natDigits (n : Nat) : digitsVal (natDigits n) = n := by
  induction n using Nat.strong_induction_on with
  | _ n ih =>
    match n with
    | 0 => rfl
    | n + 1 =>
      rw [natDigits_eq (n + 1) (Nat.succ_pos n)]
      show (n + 1) % 10 + 10 * digitsVal (natDigits ((n + 1) / 10)) = n + 1
      rw [ih ((n + 1) / 10) (Nat.div_lt_self (Nat.succ_pos n) (by omega))]
      exact Nat.mod_add_div (n + 1) 10

theorem natDigits_injective : Function.Injective natDigits := by
  intro a b h
  have := congrArg digitsVal h
  rwa [digitsVal_natDigits, digitsVal_natDigits] at this

theorem natDigits_ne_nil (n : Nat) (h : 0 < n) : natDigits n ≠ [] := by
  rw [natDigits_eq n h]; exact List.cons_ne_nil _ _

theorem digitChar_inj_lt :
    ∀ a < 10, ∀ b < 10, digitChar a = digitChar b → a = b := by decide

theorem map_digitChar_inj :
    ∀ l₁ l₂ : List Nat, (∀ d ∈ l₁, d < 10) → (∀ d ∈ l₂, d < 10) →
      l₁.map digitChar = l₂.map digitChar → l₁ = l₂ := by
  intro l₁
  induction l₁ with
  | nil => intro l₂ _ _ h; cases l₂ with
    | nil => rfl
    | cons b bs => simp at h
  | cons a as ih =>
    intro l₂ h₁ h₂ h
    cases l₂ with
    | nil => simp at h
    | cons b bs =>
      simp only [List.map_cons, List.cons.injEq] at h
      have ha : a = b := digitChar_inj_lt a (h₁ a (by simp)) b (h₂ b (by simp)) h.1
      have hs : as = bs := ih bs (fun d hd => h₁ d (by simp [hd]))
        (fun d hd => h₂ d (by simp [hd])) h.2
      rw [ha, hs]

theorem natToString_injective : Function.Injective natToString := by
  intro a b h
  by_cases ha : a = 0 <;> by_cases hb : b = 0
  · omega
  · exfalso
    simp only [natToString, ha, if_pos rfl, if_neg hb] at h
    have hdata := congrArg String.data h
    have : (natDigits b).reverse.map digitChar = [digitChar 0] := by
      simpa using hdata.symm
    have hrev : (natDigits b).reverse = [0] :=
      map_digitChar_inj _ [0]
        (fun d hd => natDigits_all_lt b d (List.mem_reverse.mp hd))
        (by intro d hd; simp at hd; omega) this
    have : natDigits b = [0] := by
      have := congrArg List.reverse hrev; simpa using this
    have := congrArg digitsVal this
    rw [digitsVal_natDigits] at this
    exact hb (by simpa [digitsVal] using this)
  · exfalso
    simp only [natToString, hb, if_pos rfl, if_neg ha] at h
    have hdata := congrArg String.data h
    have : (natDigits a).reverse.map digitChar = [digitChar 0] := by
      simpa using hdata
    have hrev : (natDigits a).reverse = [0] :=
      map_digitChar_inj _ [0]
        (fun d hd => natDigits_all_lt a d (List.mem_reverse.mp hd))
        (by intro d hd; simp at hd; omega) this
    have : natDigits a = [0] := by
      have := congrArg List.reverse hrev; simpa using this
    have := congrArg digitsVal this
    rw [digitsVal_natDigits] at this
    exact ha (by simpa [digitsVal] using this)
  · simp only [natToString, if_neg ha, if_neg hb] at h
    have hdata := congrArg String.data h
    simp only at hdata
    have hmap : (natDigits a).reverse.map digitChar
        = (natDigits b).reverse.map digitChar := hdata
    have hrev : (natDigits a).reverse = (natDigits b).reverse :=
      map_digitChar_inj _ _
        (fun d hd => natDigits_all_lt a d (List.mem_reverse.mp hd))
        (fun d hd => natDigits_all_lt b d (List.mem_reverse.mp hd)) hmap
    have : natDigits a = natDigits b := by
      have := congrArg List.reverse hrev; simpa using this
    exact natDigits_injective this

theorem natToString_length (n : Nat) (h : 0 < n) :
    (natToString n).length = (natDigits n).length := by
  simp [natToString, Nat.pos_iff_ne_zero.mp h, String.length]

theorem natToString_length_pos (n : Nat) : 0 < (natToString n).length := by
  by_cases h : n = 0
  · subst h; decide
  · rw [natToString_length n (Nat.pos_of_ne_zero h)]
    have := natDigits_ne_nil n (Nat.pos_of_ne_zero h)
    cases hd : natDigits n with
    | nil => exact absurd hd this
    | cons d ds => simp

theorem natDigits_length_ge_two (n : Nat) (h : 10 ≤ n) :
    2 ≤ (natDigits n).length := by
  rw [natDigits_eq n (by omega)]
  have h10 : 0 < n / 10 := Nat.div_pos h (by omega)
  rw [natDigits_eq (n / 10) h10]
  simp

theorem natDigits_length_ge_three (n : Nat) (h : 100 ≤ n) :
    3 ≤ (natDigits n).length := by
  rw [natDigits_eq n (by omega)]
  have h10 : 10 ≤ n / 10 := by omega
  have := natDigits_length_ge_two (n / 10) h10
  simp only [List.length_cons]
  omega

/-! ### Candidate keys tried by `Logger.__get_next_key`

The Python loop tries `key`, then `key + '-' + str(1)`, `key + '-' + str(2)`,
… until a key not present in the log dictionary is found.  `candKey key i` is
the candidate tried at step `i`. -/

def candKey (key : String) : Nat → String
  | 0 => key
  | i + 1 => key ++ "-" ++ natToString (i + 1)

theorem candKey_length_succ (key : String) (i : Nat) :
    key.length < (candKey key (i + 1)).length := by
  show key.length < ((key ++ "-") ++ natToString (i + 1)).length
  rw [String.length_append, String.length_append]
  have h1 : "-".length = 1 := rfl
  have := natToString_length_pos (i + 1)
  omega

theorem candKey_injective (key : String) : Function.Injective (candKey key) := by
  intro a b h
  match a, b with
  | 0, 0 => rfl
  | 0, b + 1 =>
    have hlen := congrArg String.length h
    rw [show candKey key 0 = key from rfl] at hlen
    have := candKey_length_succ key b
    omega
  | a + 1, 0 =>
    have hlen := congrArg String.length h
    rw [show candKey key 0 = key from rfl] at hlen
    have := candKey_length_succ key a
    omega
  | a + 1, b + 1 =>
    have hdata := congrArg String.data h
    have h1 : (key ++ "-").data ++ (natToString (a + 1)).data
        = (key ++ "-").data ++ (natToString (b + 1)).data := by
      simpa [candKey, String.data_append] using hdata
    have h2 : (natToString (a + 1)).data = (natToString (b + 1)).data :=
      List.append_cancel_left h1
    have h3 : natToString (a + 1) = natToString (b + 1) := by
      cases hs : natToString (a + 1); cases ht : natToString (b + 1)
      rw [hs, ht] at h2; simp at h2; simp [h2]
    have := natToString_injective h3
    omega

/-- Among the candidates `candKey key 0 … candKey key keys.length`, at least
one is not a member of `keys` (a pigeonhole bound used to justify the
termination of the `__get_next_key` search loop). -/
theorem exists_candKey_not_mem (keys : List String) (key : String) :
    ∃ i, i ≤ keys.length ∧ candKey key i ∉ keys := by
  by_contra hall
  push_neg at hall
  have hsub : (Finset.range (keys.length + 1)).image (candKey key)
      ⊆ keys.toFinset := by
    intro x hx
    rcases Finset.mem_image.mp hx with ⟨i, hi, rfl⟩
    have hi' : i ≤ keys.length := Nat.lt_succ_iff.mp (Finset.mem_range.mp hi)
    exact List.mem_toFinset.mpr (hall i hi')
  have hcard := Finset.card_le_card hsub
  rw [Finset.card_image_of_injective _ (candKey_injective key),
    Finset.card_range] at hcard
  have := List.toFinset_card_le keys
  omega

/-! ### The `__get_next_key` search loop

`nextFreeIdxAux keys key i fuel` mirrors the Python `while temp_key in
self.__logs` loop starting at candidate index `i`.  Fuel `keys.length + 1`
always suffices by `exists_candKey_not_mem`, so `getNextKey` computes exactly
the first candidate (in the order `key`, `key-1`, `key-2`, …) that is not in
`keys`. -/

def nextFreeIdxAux (keys : List String) (key : String) : Nat → Nat → Nat
  | i, 0 => i
  | i, fuel + 1 =>
    if candKey key i ∈ keys then nextFreeIdxAux keys key (i + 1) fuel else i

/-- The key actually used by `Logger.__get_next_key(key)` when the current
log dictionary has key list `keys`. -/
def getNextKey (keys : List String) (key : String) : String :=
  candKey key (nextFreeIdxAux keys key 0 (keys.length + 1))

theorem nextFreeIdxAux_free (keys : List String) (key : String) :
    ∀ fuel i, (∃ j, i ≤ j ∧ j < i + fuel ∧ candKey key j ∉ keys) →
      candKey key (nextFreeIdxAux keys key i fuel) ∉ keys := by
  intro fuel
  induction fuel with
  | zero => intro i ⟨j, h₁, h₂, _⟩; omega
  | succ fuel ih =>
    intro i ⟨j, h₁, h₂, h₃⟩
    show candKey key (if candKey key i ∈ keys then _ else i) ∉ keys
    by_cases hmem : candKey key i ∈ keys
    · rw [if_pos hmem]
      refine ih (i + 1) ⟨j, ?_, by omega, h₃⟩
      rcases Nat.eq_or_lt_of_le h₁ with h | h
      · exact absurd (h ▸ hmem) h₃
      · omega
    · rw [if_neg hmem]; exact hmem

theorem nextFreeIdxAux_min (keys : List String) (key : String) :
    ∀ fuel i j, i ≤ j → j < nextFreeIdxAux keys key i fuel →
      candKey key j ∈ keys := by
  intro fuel
  induction fuel with
  | zero => intro i j h₁ h₂; simp [nextFreeIdxAux] at h₂; omega
  | succ fuel ih =>
    intro i j h₁ h₂
    by_cases hmem : candKey key i ∈ keys
    · rw [show nextFreeIdxAux keys key i (fuel + 1)
          = nextFreeIdxAux keys key (i + 1) fuel by
            simp [nextFreeIdxAux, if_pos hmem]] at h₂
      rcases Nat.eq_or_lt_of_le h₁ with h | h
      · exact h ▸ hmem
      · exact ih (i + 1) j h h₂
    · rw [show nextFreeIdxAux keys key i (fuel + 1) = i by
        simp [nextFreeIdxAux, if_neg hmem]] at h₂
      omega

theorem getNextKey_not_mem (keys : List String) (key : String) :
    getNextKey keys key ∉ keys := by
  refine nextFreeIdxAux_free keys key (keys.length + 1) 0 ?_
  rcases exists_candKey_not_mem keys key with ⟨j, hj, hfree⟩
  exact ⟨j, Nat.zero_le j, by omega, hfree⟩

/-- Characterisation: if candidates `0 … m-1` are all taken and candidate `m`
is free, the search returns candidate `m`. -/
theorem getNextKey_eq_of (keys : List String) (key : String) (m : Nat)
    (hocc : ∀ i < m, candKey key i ∈ keys) (hfree : candKey key m ∉ keys) :
    getNextKey keys key = candKey key m := by
  set r := nextFreeIdxAux keys key 0 (keys.length + 1) with hr
  have hfreeR : candKey key r ∉ keys := getNextKey_not_mem keys key
  have hminR : ∀ j < r, candKey key j ∈ keys := fun j hj =>
    nextFreeIdxAux_min keys key (keys.length + 1) 0 j (Nat.zero_le j) hj
  have : r = m := by
    rcases Nat.lt_trichotomy r m with h | h | h
    · exact absurd (hocc r h) hfreeR
    · exact h
    · exact absurd (hminR m h) hfree
  show candKey key r = candKey key m
  rw [this]

theorem getNextKey_of_not_mem (keys : List String) (key : String)
    (h : key ∉ keys) : getNextKey keys key = key :=
  getNextKey_eq_of keys key 0 (by omega) h

/-! ### The log dictionary

Python dictionaries preserve insertion order, so `Logger.__logs` is embedded
as an insertion-ordered association list.  Loggable values are strings,
numbers (`dt` durations and user data; the numeric payload is opaque to the
logger, so an integer tag stands in for it) and nested dictionaries (the
mapping merged up from a scoped child). -/

inductive Value where
  | str : String → Value
  | num : Int → Value
  | dict : List (String × Value) → Value

abbrev Logs := List (String × Value)

def keysOf (logs : Logs) : List String := logs.map Prod.fst

def lookupLog : Logs → String → Option Value
  | [], _ => none
  | (k', v) :: rest, k => if k' = k then some v else lookupLog rest k

/-- Python `{**logs, k: v}` / `logs[k] = v`: if `k` is already a key its value
is replaced in place (position preserved), otherwise the pair is appended. -/
def dictInsert (logs : Logs) (k : String) (v : Value) : Logs :=
  if k ∈ keysOf logs then
    logs.map (fun p => if p.1 = k then (k, v) else p)
  else
    logs ++ [(k, v)]

/-- Python `{**a, **b}`: entries of `b` folded into `a` with dict-update
semantics. -/
def dictUnion (a b : Logs) : Logs :=
  b.foldl (fun acc p => dictInsert acc p.1 p.2) a

/-- Python `Logger.add_entry(key, value)`: the stored key is disambiguated by
`__get_next_key`, and the new pair is appended (the chosen key is fresh). -/
def add_entry (logs : Logs) (key : String) (v : Value) : Logs :=
  logs ++ [(getNextKey (keysOf logs) key, v)]

/-- Python `Logger.add_entries(entries)`: `add_entry` once per pair, in order. -/
def addEntriesList (logs : Logs) (entries : Logs) : Logs :=
  entries.foldl (fun acc p => add_entry acc p.1 p.2) logs

/-- Python `Logger.__merge(scope, log)`: dict-spread into the parent's mapping —
under the scope name when the scope is non-empty, entry-by-entry otherwise.
(Note: this is plain dict update, not `add_entry`.) -/
def merge (plogs : Logs) (scope : String) (log : Logs) : Logs :=
  if scope = "" then dictUnion plogs log else dictInsert plogs scope (.dict log)

/-! ### Logger state and lifecycle

Clock readings are inputs of the model: the construction wall-clock string
(`str(self.__TIMESTAMP)`) is stored in the state, while the exit wall-clock
string and the elapsed `dt` value are parameters of `loggerExit`. -/

structure LoggerState where
  logs : Logs
  stepCounter : Nat
  timestamp : String
  scope : String

/-- Python `Logger.__init__`: empty mapping, step counter 1, recorded construction
timestamp. -/
def initLogger (scope timestamp : String) : LoggerState :=
  { logs := [], stepCounter := 1, timestamp := timestamp, scope := scope }

/-- The three bookkeeping insertions of `Logger.__exit__`, in source order. -/
def exitLogs (st : LoggerState) (endTs : String) (dtv : Value) : Logs :=
  add_entry (add_entry (add_entry st.logs "start" (.str st.timestamp))
    "end" (.str endTs)) "dt" dtv

/-- Python `Logger.__step_counter_to_string`. -/
def stepCounterToString (c : Nat) : String :=
  (if c < 10 then "0" else "") ++ natToString c

/-- Filename built by the `save_*` methods: optional zero-padded step prefix,
then `name`, then the extension. -/
def saveFilename (c : Nat) (name ext : String) (withStep : Bool) : String :=
  (if withStep then stepCounterToString c ++ "-" else "") ++ name ++ "." ++ ext

/-- Observable effect of `Logger.__exit__` after the three bookkeeping
entries are added. -/
inductive ExitEffect where
  | merged (parentLogs : Logs)
  | savedJson (filename : String) (content : Logs)

/-- Python `Logger.__exit__`: append `start`/`end`/`dt`, then merge into the parent
(whose log dictionary is `plogs`) if one exists, else save the mapping as
JSON under the name `telemetry`. -/
def loggerExit (st : LoggerState) (parent : Option Logs) (endTs : String)
    (dtv : Value) : ExitEffect :=
  match parent with
  | some plogs => .merged (merge plogs st.scope (exitLogs st endTs dtv))
  | none => .savedJson (saveFilename st.stepCounter "telemetry" "json" false)
      (exitLogs st endTs dtv)

/-- State change of a successful `Logger.log_func` call: one entry holding
the elapsed duration and the keyword arguments, and the step counter bumped.
(`dtv` models `end - start` measured around the call.) -/
def logFunc (st : LoggerState) (funcName : String) (kwargs : Logs)
    (dtv : Value) : LoggerState :=
  { st with
    logs := add_entry st.logs funcName
      (.dict [("dt", dtv), ("params", .dict kwargs)])
    stepCounter := st.stepCounter + 1 }

/-- Python `Logger.log_func` including the call itself: `call` is the outcome of
`func(*args, **kwargs)` (the positional arguments `args` influence only that
outcome).  If the call raises, the exception propagates before any
bookkeeping; otherwise the entry is recorded, the counter incremented, and
the result returned unchanged. -/
def logFuncCall {ε α : Type} (st : LoggerState) (funcName : String)
    (args : List Value) (kwargs : Logs) (call : Except ε α) (dtv : Value) :
    Except ε (LoggerState × α) :=
  match call with
  | .error e => .error e
  | .ok r => .ok (logFunc st funcName kwargs dtv, r)

/-- The entry list `k, k-1, k-2, …` produced by repeatedly inserting key `k`
(starting at suffix index `m`) with the successive values `vs`. -/
def kFamily (k : String) (m : Nat) : List Value → Logs
  | [] => []
  | v :: vs => (candKey k m, v) :: kFamily k (m + 1) vs

/-! ### Association-list lemmas -/

theorem keysOf_append (a b : Logs) : keysOf (a ++ b) = keysOf a ++ keysOf b := by
  simp [keysOf]

theorem not_mem_keysOf_cons {p : String × Value} {rest : Logs} {k : String}
    (h : k ∉ keysOf (p :: rest)) : k ≠ p.1 ∧ k ∉ keysOf rest := by
  rw [show keysOf (p :: rest) = p.1 :: keysOf rest from rfl] at h
  exact ⟨fun hc => h (hc ▸ List.mem_cons_self _ _),
    fun hc => h (List.mem_cons_of_mem _ hc)⟩

theorem lookupLog_eq_none (logs : Logs) (k : String) (h : k ∉ keysOf logs) :
    lookupLog logs k = none := by
  induction logs with
  | nil => rfl
  | cons p rest ih =>
    obtain ⟨hne, hrest⟩ := not_mem_keysOf_cons h
    obtain ⟨p₁, p₂⟩ := p
    show (if p₁ = k then some p₂ else lookupLog rest k) = none
    rw [if_neg (fun hc => hne hc.symm)]
    exact ih hrest

theorem mem_keysOf_cons {p : String × Value} {rest : Logs} {k : String}
    (h : k ∈ keysOf (p :: rest)) : k = p.1 ∨ k ∈ keysOf rest := by
  rw [show keysOf (p :: rest) = p.1 :: keysOf rest from rfl] at h
  exact List.mem_cons.mp h

theorem lookupLog_isSome (logs : Logs) (k : String) (h : k ∈ keysOf logs) :
    ∃ v, lookupLog logs k = some v := by
  induction logs with
  | nil => simp [keysOf] at h
  | cons p rest ih =>
    obtain ⟨p₁, p₂⟩ := p
    by_cases hk : p₁ = k
    · exact ⟨p₂, by
        show (if p₁ = k then some p₂ else lookupLog rest k) = some p₂
        rw [if_pos hk]⟩
    · rcases mem_keysOf_cons h with h | h
      · exact absurd h.symm hk
      · rcases ih h with ⟨v, hv⟩
        refine ⟨v, ?_⟩
        show (if p₁ = k then some p₂ else lookupLog rest k) = some v
        rw [if_neg hk]; exact hv

theorem lookupLog_append_right (a b : Logs) (k : String) (h : k ∉ keysOf a) :
    lookupLog (a ++ b) k = lookupLog b k := by
  induction a with
  | nil => rfl
  | cons p rest ih =>
    obtain ⟨hne, hrest⟩ := not_mem_keysOf_cons h
    obtain ⟨p₁, p₂⟩ := p
    show (if p₁ = k then some p₂ else lookupLog (rest ++ b) k) = lookupLog b k
    rw [if_neg (fun hc => hne hc.symm)]
    exact ih hrest

theorem lookupLog_append_single_ne (logs : Logs) (f k : String) (v : Value)
    (h : f ≠ k) : lookupLog (logs ++ [(f, v)]) k = lookupLog logs k := by
  induction logs with
  | nil =>
    show (if f = k then some v else none) = none
    rw [if_neg h]
  | cons p rest ih =>
    obtain ⟨p₁, p₂⟩ := p
    show (if p₁ = k then some p₂ else lookupLog (rest ++ [(f, v)]) k)
        = (if p₁ = k then some p₂ else lookupLog rest k)
    by_cases hk : p₁ = k
    · rw [if_pos hk, if_pos hk]
    · rw [if_neg hk, if_neg hk]; exact ih

/-! ### `dictInsert` (Python dict update) lemmas -/

theorem dictInsert_not_mem (logs : Logs) (k : String) (v : Value)
    (h : k ∉ keysOf logs) : dictInsert logs k v = logs ++ [(k, v)] := by
  unfold dictInsert
  rw [if_neg h]

theorem dictInsert_mem (logs : Logs) (k : String) (v : Value)
    (h : k ∈ keysOf logs) :
    dictInsert logs k v = logs.map (fun p => if p.1 = k then (k, v) else p) := by
  unfold dictInsert
  rw [if_pos h]

theorem keysOf_map_update (logs : Logs) (k : String) (v : Value) :
    keysOf (logs.map (fun p => if p.1 = k then (k, v) else p))
      = keysOf logs := by
  unfold keysOf
  rw [List.map_map]
  apply List.map_congr_left
  intro p _
  by_cases hk : p.1 = k
  · simp [Function.comp, hk]
  · simp [Function.comp, hk]

theorem keysOf_dictInsert_mem (logs : Logs) (k : String) (v : Value)
    (h : k ∈ keysOf logs) : keysOf (dictInsert logs k v) = keysOf logs := by
  rw [dictInsert_mem logs k v h, keysOf_map_update]

theorem lookupLog_map_update_self (logs : Logs) (k : String) (v : Value)
    (h : k ∈ keysOf logs) :
    lookupLog (logs.map (fun p => if p.1 = k then (k, v) else p)) k
      = some v := by
  induction logs with
  | nil => simp [keysOf] at h
  | cons p rest ih =>
    obtain ⟨p₁, p₂⟩ := p
    set L := rest.map (fun p => if p.1 = k then (k, v) else p) with hL
    by_cases hk : p₁ = k
    · have hhead : (if (p₁, p₂).1 = k then (k, v) else (p₁, p₂)) = (k, v) := by
        simp [hk]
      rw [List.map_cons, hhead]
      show (if k = k then some v else lookupLog L k) = some v
      rw [if_pos rfl]
    · have hhead : (if (p₁, p₂).1 = k then (k, v) else (p₁, p₂)) = (p₁, p₂) := by
        simp [hk]
      rw [List.map_cons, hhead]
      show (if p₁ = k then some p₂ else lookupLog L k) = some v
      rw [if_neg hk]
      rcases mem_keysOf_cons h with h' | h'
      · exact absurd h'.symm hk
      · exact ih h'

theorem lookupLog_dictInsert_self (logs : Logs) (k : String) (v : Value) :
    lookupLog (dictInsert logs k v) k = some v := by
  by_cases h : k ∈ keysOf logs
  · rw [dictInsert_mem logs k v h]
    exact lookupLog_map_update_self logs k v h
  · rw [dictInsert_not_mem logs k v h, lookupLog_append_right logs _ k h]
    show (if k = k then some v else none) = some v
    rw [if_pos rfl]

theorem lookupLog_map_update_ne (logs : Logs) (k : String) (v : Value)
    (k' : String) (h : k' ≠ k) :
    lookupLog (logs.map (fun p => if p.1 = k then (k, v) else p)) k'
      = lookupLog logs k' := by
  induction logs with
  | nil => rfl
  | cons p rest ih =>
    obtain ⟨p₁, p₂⟩ := p
    set L := rest.map (fun p => if p.1 = k then (k, v) else p) with hL
    by_cases hk : p₁ = k
    · have hhead : (if (p₁, p₂).1 = k then (k, v) else (p₁, p₂)) = (k, v) := by
        simp [hk]
      rw [List.map_cons, hhead]
      show (if k = k' then some v else lookupLog L k')
          = (if p₁ = k' then some p₂ else lookupLog rest k')
      rw [if_neg (fun hc => h hc.symm), if_neg (fun hc => h (hk ▸ hc).symm)]
      exact ih
    · have hhead : (if (p₁, p₂).1 = k then (k, v) else (p₁, p₂)) = (p₁, p₂) := by
        simp [hk]
      rw [List.map_cons, hhead]
      show (if p₁ = k' then some p₂ else lookupLog L k')
          = (if p₁ = k' then some p₂ else lookupLog rest k')
      by_cases hpk : p₁ = k'
      · rw [if_pos hpk, if_pos hpk]
      · rw [if_neg hpk, if_neg hpk]
        exact ih

theorem lookupLog_dictInsert_ne (logs : Logs) (k : String) (v : Value)
    (k' : String) (h : k' ≠ k) :
    lookupLog (dictInsert logs k v) k' = lookupLog logs k' := by
  by_cases hm : k ∈ keysOf logs
  · rw [dictInsert_mem logs k v hm]
    exact lookupLog_map_update_ne logs k v k' h
  · rw [dictInsert_not_mem logs k v hm]
    exact lookupLog_append_single_ne logs k k' v (fun hc => h hc.symm)

/-! ### `dictUnion` (Python `{**a, **b}`) lemmas -/

theorem dictUnion_nil (a : Logs) : dictUnion a [] = a := rfl

theorem dictUnion_cons (a : Logs) (k : String) (v : Value) (b : Logs) :
    dictUnion a ((k, v) :: b) = dictUnion (dictInsert a k v) b := rfl

theorem lookupLog_dictUnion_not_mem (b : Logs) :
    ∀ a (k : String), k ∉ keysOf b →
      lookupLog (dictUnion a b) k = lookupLog a k := by
  induction b with
  | nil => intro a k _; rfl
  | cons p rest ih =>
    intro a k h
    obtain ⟨hne, hrest⟩ := not_mem_keysOf_cons h
    obtain ⟨p₁, p₂⟩ := p
    rw [dictUnion_cons, ih (dictInsert a p₁ p₂) k hrest,
      lookupLog_dictInsert_ne a p₁ p₂ k hne]

theorem lookupLog_dictUnion_mem (b : Logs) :
    ∀ a (k : String), (keysOf b).Nodup → k ∈ keysOf b →
      lookupLog (dictUnion a b) k = lookupLog b k := by
  induction b with
  | nil => intro a k _ h; simp [keysOf] at h
  | cons p rest ih =>
    intro a k hnd h
    obtain ⟨p₁, p₂⟩ := p
    have hnd' : p₁ ∉ keysOf rest ∧ (keysOf rest).Nodup := by
      rw [show keysOf ((p₁, p₂) :: rest) = p₁ :: keysOf rest from rfl] at hnd
      exact ⟨(List.nodup_cons.mp hnd).1, (List.nodup_cons.mp hnd).2⟩
    rcases mem_keysOf_cons h with hk | hk
    · subst hk
      rw [dictUnion_cons, lookupLog_dictUnion_not_mem rest _ k hnd'.1,
        lookupLog_dictInsert_self]
      show some p₂ = if k = k then some p₂ else lookupLog rest k
      rw [if_pos rfl]
    · have hne : k ≠ p₁ := fun hc => hnd'.1 (hc ▸ hk)
      rw [dictUnion_cons, ih (dictInsert a p₁ p₂) k hnd'.2 hk]
      show lookupLog rest k = if p₁ = k then some p₂ else lookupLog rest k
      rw [if_neg (fun hc => hne hc.symm)]

theorem dictUnion_disjoint (b : Logs) :
    ∀ a, (keysOf b).Nodup → (∀ k ∈ keysOf b, k ∉ keysOf a) →
      dictUnion a b = a ++ b := by
  induction b with
  | nil => intro a _ _; simp [dictUnion_nil]
  | cons p rest ih =>
    intro a hnd hdisj
    obtain ⟨p₁, p₂⟩ := p
    have hmem : p₁ ∈ keysOf ((p₁, p₂) :: rest) := by
      rw [show keysOf ((p₁, p₂) :: rest) = p₁ :: keysOf rest from rfl]
      exact List.mem_cons_self _ _
    have hnd' : p₁ ∉ keysOf rest ∧ (keysOf rest).Nodup := by
      rw [show keysOf ((p₁, p₂) :: rest) = p₁ :: keysOf rest from rfl] at hnd
      exact ⟨(List.nodup_cons.mp hnd).1, (List.nodup_cons.mp hnd).2⟩
    rw [dictUnion_cons, dictInsert_not_mem a p₁ p₂ (hdisj p₁ hmem)]
    rw [ih (a ++ [(p₁, p₂)]) hnd'.2 ?_]
    · rw [List.append_assoc]
      rfl
    · intro k hk
      have hk' : k ∈ keysOf ((p₁, p₂) :: rest) := by
        rw [show keysOf ((p₁, p₂) :: rest) = p₁ :: keysOf rest from rfl]
        exact List.mem_cons_of_mem _ hk
      rw [keysOf_append]
      intro hc
      rcases List.mem_append.mp hc with hc | hc
      · exact hdisj k hk' hc
      · have : k = p₁ := by simpa [keysOf] using hc
        exact hnd'.1 (this ▸ hk)

/-! ### `add_entry` lemmas -/

theorem add_entry_fresh (logs : Logs) (key : String) (v : Value) :
    getNextKey (keysOf logs) key ∉ keysOf logs :=
  getNextKey_not_mem (keysOf logs) key

theorem add_entry_not_mem (logs : Logs) (key : String) (v : Value)
    (h : key ∉ keysOf logs) : add_entry logs key v = logs ++ [(key, v)] := by
  unfold add_entry
  rw [getNextKey_of_not_mem (keysOf logs) key h]

theorem length_add_entry (logs : Logs) (key : String) (v : Value) :
    (add_entry logs key v).length = logs.length + 1 := by
  unfold add_entry
  rw [List.length_append]
  rfl

theorem lookupLog_add_entry_preserved (logs : Logs) (key : String) (v : Value)
    (k' : String) (h : k' ∈ keysOf logs) :
    lookupLog (add_entry logs key v) k' = lookupLog logs k' := by
  unfold add_entry
  exact lookupLog_append_single_ne logs _ k' v
    (fun hc => add_entry_fresh logs key v (hc ▸ h))

theorem addEntriesList_nil (a : Logs) : addEntriesList a [] = a := rfl

theorem addEntriesList_cons (a : Logs) (k : String) (v : Value) (b : Logs) :
    addEntriesList a ((k, v) :: b) = addEntriesList (add_entry a k v) b := rfl

theorem addEntriesList_disjoint (b : Logs) :
    ∀ a, (keysOf b).Nodup → (∀ k ∈ keysOf b, k ∉ keysOf a) →
      addEntriesList a b = a ++ b := by
  induction b with
  | nil => intro a _ _; simp [addEntriesList_nil]
  | cons p rest ih =>
    intro a hnd hdisj
    obtain ⟨p₁, p₂⟩ := p
    have hmem : p₁ ∈ keysOf ((p₁, p₂) :: rest) := by
      rw [show keysOf ((p₁, p₂) :: rest) = p₁ :: keysOf rest from rfl]
      exact List.mem_cons_self _ _
    have hnd' : p₁ ∉ keysOf rest ∧ (keysOf rest).Nodup := by
      rw [show keysOf ((p₁, p₂) :: rest) = p₁ :: keysOf rest from rfl] at hnd
      exact ⟨(List.nodup_cons.mp hnd).1, (List.nodup_cons.mp hnd).2⟩
    rw [addEntriesList_cons, add_entry_not_mem a p₁ p₂ (hdisj p₁ hmem)]
    rw [ih (a ++ [(p₁, p₂)]) hnd'.2 ?_]
    · rw [List.append_assoc]
      rfl
    · intro k hk
      have hk' : k ∈ keysOf ((p₁, p₂) :: rest) := by
        rw [show keysOf ((p₁, p₂) :: rest) = p₁ :: keysOf rest from rfl]
        exact List.mem_cons_of_mem _ hk
      rw [keysOf_append]
      intro hc
      rcases List.mem_append.mp hc with hc | hc
      · exact hdisj k hk' hc
      · have : k = p₁ := by simpa [keysOf] using hc
        exact hnd'.1 (this ▸ hk)

/-! ### Repeated insertion of a single key -/

theorem repeated_insert_aux (k : String) (vs : List Value) :
    ∀ (m : Nat) (logs : Logs),
      (∀ i, m ≤ i → candKey k i ∉ keysOf logs) →
      (∀ i, i < m → candKey k i ∈ keysOf logs) →
      addEntriesList logs (vs.map (fun v => (k, v))) = logs ++ kFamily k m vs := by
  induction vs with
  | nil => intro m logs _ _; simp [addEntriesList_nil, kFamily]
  | cons v vs ih =>
    intro m logs hfree hocc
    rw [List.map_cons, addEntriesList_cons]
    have hkey : getNextKey (keysOf logs) k = candKey k m :=
      getNextKey_eq_of (keysOf logs) k m hocc (hfree m (Nat.le_refl m))
    have hstep : add_entry logs k v = logs ++ [(candKey k m, v)] := by
      unfold add_entry
      rw [hkey]
    rw [hstep]
    have hkeys : keysOf (logs ++ [(candKey k m, v)])
        = keysOf logs ++ [candKey k m] := by
      rw [keysOf_append]
      rfl
    rw [ih (m + 1) (logs ++ [(candKey k m, v)]) ?_ ?_]
    · rw [List.append_assoc]
      rfl
    · intro i hi
      rw [hkeys]
      intro hc
      rcases List.mem_append.mp hc with hc | hc
      · exact hfree i (by omega) hc
      · have : candKey k i = candKey k m := by simpa using hc
        have := candKey_injective k this
        omega
    · intro i hi
      rw [hkeys]
      rcases Nat.lt_succ_iff_lt_or_eq.mp hi with hlt | heq
      · exact List.mem_append.mpr (Or.inl (hocc i hlt))
      · exact List.mem_append.mpr (Or.inr (by simp [heq]))

/-- Repeatedly inserting key `k` into a mapping holding no `k`-family key
yields `k`, `k-1`, `k-2`, … appended in first-insertion order, each holding
the value supplied at that insertion. -/
theorem repeated_insert (k : String) (vs : List Value) (logs : Logs)
    (h : ∀ i, candKey k i ∉ keysOf logs) :
    addEntriesList logs (vs.map (fun v => (k, v))) = logs ++ kFamily k 0 vs :=
  repeated_insert_aux k vs 0 logs (fun i _ => h i) (fun i hi => absurd hi (by omega))

/-! ### The JSON encoder hook (`NumpyEncoder.default`)

`json.dump` calls `default` on every value the base encoder cannot
serialize.  The cases of `PyObj` enumerate how such a value can relate to
the checks performed in `NumpyEncoder.default`, in source order:

* `npArr shape asList` — a `numpy.ndarray` whose `.size` is the product of
  the dimensions in `shape` and whose `.tolist()` is `asList`;
* `npNum s` — an instance of `np.int`/`np.float` (aliases of the builtin
  numeric types), with `str(obj) = s`;
* `npSized s` — a value whose type is one of `np.int8/16/32/64`, with
  `str(obj) = s`;
* `withAttrName n` — any other value that has a `__name__` attribute (a
  function or a class), with `obj.__name__ = n`;
* `plain t` — any other value, of type named `t`; the base encoder raises
  `TypeError` for it. -/

inductive JVal where
  | jstr : String → JVal
  | jarr : List JVal → JVal
  | jnum : Int → JVal

inductive PyObj where
  | npArr (shape : List Nat) (asList : JVal)
  | npNum (s : String)
  | npSized (s : String)
  | withAttrName (n : String)
  | plain (typeName : String)

/-- Rendering of a Python tuple tail: ", d" for each further element. -/
def pyTupleTail : List Nat → String
  | [] => ""
  | d :: rest => ", " ++ natToString d ++ pyTupleTail rest

/-- Python `str` of a tuple of ints, as in `str(obj.shape)`: `"()"`,
`"(20,)"`, `"(2, 3)"`, …. -/
def pyTupleStr : List Nat → String
  | [] => "()"
  | [d] => "(" ++ natToString d ++ ",)"
  | d :: rest => "(" ++ natToString d ++ pyTupleTail rest ++ ")"

/-- Embedding of `NumpyEncoder.default`, with `Except.error` for the
`TypeError` raised by the base-class `default`. -/
def encoderDefault : PyObj → Except String JVal
  | .npArr shape asList =>
      if shape.prod < 20 then .ok asList
      else .ok (.jstr ("shape:" ++ pyTupleStr shape))
  | .npNum s => .ok (.jstr s)
  | .npSized s => .ok (.jstr s)
  | .withAttrName n => .ok (.jstr n)
  | .plain t => .error ("Object of type " ++ t ++ " is not JSON serializable")

/-! ### Further helpers shared by the claim theorems -/

/-- State reached after a sequence of successful `log_func` calls, each
described by (function name, kwargs, measured dt). -/
def runLogFuncs (st : LoggerState) (calls : List (String × Logs × Value)) :
    LoggerState :=
  calls.foldl (fun s c => logFunc s c.1 c.2.1 c.2.2) st

theorem runLogFuncs_stepCounter (calls : List (String × Logs × Value)) :
    ∀ st, (runLogFuncs st calls).stepCounter = st.stepCounter + calls.length := by
  induction calls with
  | nil => intro st; rfl
  | cons c rest ih =>
    intro st
    show (runLogFuncs (logFunc st c.1 c.2.1 c.2.2) rest).stepCounter = _
    rw [ih (logFunc st c.1 c.2.1 c.2.2)]
    show st.stepCounter + 1 + rest.length = st.stepCounter + (rest.length + 1)
    omega

/-- When none of `start`/`end`/`dt` is already a key, the three bookkeeping
insertions of `__exit__` append exactly those three keys in order. -/
theorem exitLogs_fresh (st : LoggerState) (endTs : String) (dtv : Value)
    (h1 : "start" ∉ keysOf st.logs) (h2 : "end" ∉ keysOf st.logs)
    (h3 : "dt" ∉ keysOf st.logs) :
    exitLogs st endTs dtv = st.logs ++ [("start", .str st.timestamp),
      ("end", .str endTs), ("dt", dtv)] := by
  unfold exitLogs
  rw [add_entry_not_mem _ "start" _ h1]
  have hk1 : keysOf (st.logs ++ [("start", Value.str st.timestamp)])
      = keysOf st.logs ++ ["start"] := by
    rw [keysOf_append]; rfl
  have h2' : "end" ∉ keysOf (st.logs ++ [("start", Value.str st.timestamp)]) := by
    rw [hk1]
    intro hc
    rcases List.mem_append.mp hc with hc | hc
    · exact h2 hc
    · have : ("end" : String) = "start" := by simpa using hc
      exact absurd this (by decide)
  rw [add_entry_not_mem _ "end" _ h2']
  have hk2 : keysOf ((st.logs ++ [("start", Value.str st.timestamp)])
        ++ [("end", Value.str endTs)])
      = (keysOf st.logs ++ ["start"]) ++ ["end"] := by
    rw [keysOf_append, hk1]; rfl
  have h3' : "dt" ∉ keysOf ((st.logs ++ [("start", Value.str st.timestamp)])
      ++ [("end", Value.str endTs)]) := by
    rw [hk2]
    intro hc
    rcases List.mem_append.mp hc with hc | hc
    · rcases List.mem_append.mp hc with hc | hc
      · exact h3 hc
      · have : ("dt" : String) = "start" := by simpa using hc
        exact absurd this (by decide)
    · have : ("dt" : String) = "end" := by simpa using hc
      exact absurd this (by decide)
  rw [add_entry_not_mem _ "dt" _ h3']
  simp [List.append_assoc]

theorem exitLogs_length (st : LoggerState) (endTs : String) (dtv : Value) :
    (exitLogs st endTs dtv).length = st.logs.length + 3 := by
  unfold exitLogs
  rw [length_add_entry, length_add_entry, length_add_entry]

/-! ## The claims -/

/-- C1, counterexample.  The spec claims a merge never overwrites a parent
key: with parent mapping `{"s": "old"}` and a child of scope `"s"` whose
mapping is `{"x": "new"}`, `Logger.__merge` replaces the parent's value at
`"s"` outright (dict spread), so the pre-existing value `"old"` is lost and
no suffix-disambiguated key appears. -/
theorem C1_merge_overwrites_counterexample :
    merge [("s", Value.str "old")] "s" [("x", Value.str "new")]
      = [("s", Value.dict [("x", Value.str "new")])] ∧
    lookupLog (merge [("s", Value.str "old")] "s" [("x", Value.str "new")]) "s"
      ≠ some (Value.str "old") := by
  refine ⟨rfl, ?_⟩
  intro h
  have h' : some (Value.dict [("x", Value.str "new")])
      = some (Value.str "old") := h
  exact Value.noConfusion (Option.some.inj h')

/-- C1 (amended): `Logger.__merge` uses Python dict-spread update, not the
incrementing-suffix rule: with a non-empty child scope the child's mapping
becomes the value at the scope key, replacing any pre-existing parent value
there; with an empty scope each child entry's value wins at colliding keys.
Parent entries at other keys are unchanged. -/
theorem C1_merge_dict_update (plogs : Logs) (scope : String) (clog : Logs) :
    (scope ≠ "" →
      lookupLog (merge plogs scope clog) scope = some (.dict clog) ∧
      ∀ k, k ≠ scope →
        lookupLog (merge plogs scope clog) k = lookupLog plogs k) ∧
    ((keysOf clog).Nodup →
      (∀ k, k ∈ keysOf clog →
        lookupLog (merge plogs "" clog) k = lookupLog clog k) ∧
      (∀ k, k ∉ keysOf clog →
        lookupLog (merge plogs "" clog) k = lookupLog plogs k)) := by
  constructor
  · intro hscope
    have hm : merge plogs scope clog = dictInsert plogs scope (.dict clog) := by
      unfold merge
      rw [if_neg hscope]
    rw [hm]
    exact ⟨lookupLog_dictInsert_self plogs scope _,
      fun k hk => lookupLog_dictInsert_ne plogs scope _ k hk⟩
  · intro hnd
    have hm : merge plogs "" clog = dictUnion plogs clog := by
      unfold merge
      rw [if_pos rfl]
    rw [hm]
    exact ⟨fun k hk => lookupLog_dictUnion_mem clog plogs k hnd hk,
      fun k hk => lookupLog_dictUnion_not_mem clog plogs k hk⟩

/-- C1, witness for the amended theorem at a concrete merge. -/
theorem C1_merge_dict_update_witness :
    lookupLog (merge [("a", Value.num 1)] "s" [("x", Value.num 2)]) "s"
      = some (Value.dict [("x", Value.num 2)]) ∧
    lookupLog (merge [("a", Value.num 1)] "s" [("x", Value.num 2)]) "a"
      = lookupLog [("a", Value.num 1)] "a" ∧
    lookupLog (merge [("a", Value.num 1)] "" [("x", Value.num 2)]) "x"
      = lookupLog [("x", Value.num 2)] "x" := by
  have h := C1_merge_dict_update [("a", Value.num 1)] "s" [("x", Value.num 2)]
  have h2 := C1_merge_dict_update [("a", Value.num 1)] "" [("x", Value.num 2)]
  refine ⟨(h.1 (by decide)).1, (h.1 (by decide)).2 "a" (by decide), ?_⟩
  exact (h2.2 (by simp [keysOf])).1 "x" (by simp [keysOf])

/-- C2: `add_entry` stores a fresh key unchanged; a colliding key gets the
smallest unused positive suffix, joined by `-`; repeated insertions of one
key accumulate as `k`, `k-1`, `k-2`, … in first-insertion order; and no
existing value is ever overwritten. -/
theorem C2_add_entry_disambiguation :
    (∀ (logs : Logs) (key : String) (v : Value), key ∉ keysOf logs →
      add_entry logs key v = logs ++ [(key, v)]) ∧
    (∀ (logs : Logs) (key : String) (v : Value), key ∈ keysOf logs →
      ∃ j, 1 ≤ j ∧ (∀ i, i < j → candKey key i ∈ keysOf logs) ∧
        candKey key j ∉ keysOf logs ∧
        add_entry logs key v = logs ++ [(key ++ "-" ++ natToString j, v)]) ∧
    (∀ (k : String) (vs : List Value) (logs : Logs),
      (∀ i, candKey k i ∉ keysOf logs) →
      addEntriesList logs (vs.map (fun v => (k, v))) = logs ++ kFamily k 0 vs) ∧
    (∀ (logs : Logs) (key : String) (v : Value) (k' : String),
      k' ∈ keysOf logs →
      lookupLog (add_entry logs key v) k' = lookupLog logs k') := by
  refine ⟨add_entry_not_mem, ?_, repeated_insert, lookupLog_add_entry_preserved⟩
  intro logs key v hmem
  set keys := keysOf logs with hkeys
  set r := nextFreeIdxAux keys key 0 (keys.length + 1) with hr
  have hfree : candKey key r ∉ keys := getNextKey_not_mem keys key
  have hmin : ∀ i, i < r → candKey key i ∈ keys := fun i hi =>
    nextFreeIdxAux_min keys key (keys.length + 1) 0 i (Nat.zero_le i) hi
  have hpos : 1 ≤ r := by
    rcases Nat.eq_zero_or_pos r with h0 | h0
    · exact absurd (h0 ▸ hfree) (by simpa using hmem)
    · exact h0
  refine ⟨r, hpos, hmin, hfree, ?_⟩
  obtain ⟨j', hj'⟩ : ∃ j', r = j' + 1 := ⟨r - 1, by omega⟩
  have hcand : candKey key r = key ++ "-" ++ natToString r := by
    rw [hj']
    rfl
  show logs ++ [(getNextKey keys key, v)] = _
  rw [show getNextKey keys key = candKey key r from rfl, hcand]

/-- C2, witness: inserting a fresh key, and twice the same key, on concrete
inputs. -/
theorem C2_add_entry_disambiguation_witness :
    add_entry [] "a" (Value.num 1) = [("a", Value.num 1)] ∧
    addEntriesList [] ([Value.num 1, Value.num 2].map (fun v => ("k", v)))
      = [("k", Value.num 1), ("k-1", Value.num 2)] := by
  constructor
  · exact C2_add_entry_disambiguation.1 [] "a" (Value.num 1) (by simp [keysOf])
  · have h := C2_add_entry_disambiguation.2.2.1 "k" [Value.num 1, Value.num 2]
      [] (fun i => by simp [keysOf])
    rw [h]
    rfl

/-- A child logger, freshly constructed with scope name `"s"` at wall-clock
`"T0"`, that logged nothing of its own. -/
def scopedChildSt : LoggerState := ⟨[], 1, "T0", "s"⟩

/-- A root logger whose user already inserted an entry under `"start"`. -/
def startTakenSt : LoggerState := ⟨[("start", Value.str "X")], 1, "T0", ""⟩

/-- A root logger with one ordinary entry. -/
def rootSt : LoggerState := ⟨[("foo", Value.str "bar")], 1, "T0", ""⟩

/-- C3, counterexample.  When the child's scope name already is a parent
key, scope exit adds no new top-level key at all: the parent's key list is
unchanged (the pre-existing entry's value is replaced instead), refuting
"the parent's mapping gains exactly one new top-level key … no other parent
entry changes". -/
theorem C3_scoped_exit_counterexample :
    loggerExit scopedChildSt (some [("s", Value.str "old")]) "T1" (Value.num 7)
      = ExitEffect.merged [("s", Value.dict [("start", Value.str "T0"),
          ("end", Value.str "T1"), ("dt", Value.num 7)])] ∧
    keysOf [("s", Value.dict [("start", Value.str "T0"),
        ("end", Value.str "T1"), ("dt", Value.num 7)])]
      = keysOf [("s", Value.str "old")] ∧
    lookupLog [("s", Value.dict [("start", Value.str "T0"),
        ("end", Value.str "T1"), ("dt", Value.num 7)])] "s"
      ≠ some (Value.str "old") := by
  refine ⟨rfl, rfl, ?_⟩
  intro h
  have h' : some (Value.dict [("start", Value.str "T0"),
      ("end", Value.str "T1"), ("dt", Value.num 7)])
      = some (Value.str "old") := h
  exact Value.noConfusion (Option.some.inj h')

/-- C3 (amended): a child with non-empty scope name merges its full mapping
(bookkeeping `start`/`end`/`dt` included) under the scope name.  When the
scope name is not yet a parent key, the parent gains exactly that one new
appended entry and nothing else changes; when it already is a parent key,
the pre-existing value is replaced in place and no new key appears. -/
theorem C3_scoped_exit (st : LoggerState) (plogs : Logs) (endTs : String)
    (dtv : Value) (hscope : st.scope ≠ "") :
    loggerExit st (some plogs) endTs dtv
      = .merged (merge plogs st.scope (exitLogs st endTs dtv)) ∧
    (st.scope ∉ keysOf plogs →
      merge plogs st.scope (exitLogs st endTs dtv)
        = plogs ++ [(st.scope, .dict (exitLogs st endTs dtv))]) ∧
    (st.scope ∈ keysOf plogs →
      keysOf (merge plogs st.scope (exitLogs st endTs dtv)) = keysOf plogs) ∧
    lookupLog (merge plogs st.scope (exitLogs st endTs dtv)) st.scope
      = some (.dict (exitLogs st endTs dtv)) ∧
    (∀ k, k ≠ st.scope →
      lookupLog (merge plogs st.scope (exitLogs st endTs dtv)) k
        = lookupLog plogs k) ∧
    ("start" ∉ keysOf st.logs → "end" ∉ keysOf st.logs →
      "dt" ∉ keysOf st.logs →
      exitLogs st endTs dtv = st.logs ++ [("start", .str st.timestamp),
        ("end", .str endTs), ("dt", dtv)]) := by
  have hm : merge plogs st.scope (exitLogs st endTs dtv)
      = dictInsert plogs st.scope (.dict (exitLogs st endTs dtv)) := by
    unfold merge
    rw [if_neg hscope]
  refine ⟨rfl, ?_, ?_, ?_, ?_, exitLogs_fresh st endTs dtv⟩
  · intro hnot
    rw [hm, dictInsert_not_mem plogs st.scope _ hnot]
  · intro hmem
    rw [hm, keysOf_dictInsert_mem plogs st.scope _ hmem]
  · rw [hm]
    exact lookupLog_dictInsert_self plogs st.scope _
  · intro k hk
    rw [hm]
    exact lookupLog_dictInsert_ne plogs st.scope _ k hk

/-- C3, witness for the amended theorem: fresh scope name on a concrete
parent. -/
theorem C3_scoped_exit_witness :
    loggerExit scopedChildSt (some [("a", Value.num 1)]) "T1" (Value.num 7)
      = ExitEffect.merged (merge [("a", Value.num 1)] "s"
          (exitLogs scopedChildSt "T1" (Value.num 7))) ∧
    merge [("a", Value.num 1)] "s" (exitLogs scopedChildSt "T1" (Value.num 7))
      = [("a", Value.num 1)]
          ++ [("s", Value.dict (exitLogs scopedChildSt "T1" (Value.num 7)))] ∧
    exitLogs scopedChildSt "T1" (Value.num 7)
      = [] ++ [("start", Value.str "T0"), ("end", Value.str "T1"),
          ("dt", Value.num 7)] := by
  have h := C3_scoped_exit scopedChildSt [("a", Value.num 1)] "T1"
    (Value.num 7) (by decide)
  exact ⟨h.1, h.2.1 (by simp [scopedChildSt, keysOf]),
    h.2.2.2.2.2 (by simp [scopedChildSt, keysOf])
      (by simp [scopedChildSt, keysOf]) (by simp [scopedChildSt, keysOf])⟩

/-- C4, counterexample.  An unscoped child whose mapping collides with the
parent is NOT equivalent to per-entry `add_entry`: the dict-spread merge
overwrites the parent's `"a"`, while `add_entry` would have kept it and
added `"a-1"`. -/
theorem C4_unscoped_merge_counterexample :
    merge [("a", Value.num 1)] "" [("a", Value.num 2)] = [("a", Value.num 2)] ∧
    addEntriesList [("a", Value.num 1)] [("a", Value.num 2)]
      = [("a", Value.num 1), ("a-1", Value.num 2)] ∧
    merge [("a", Value.num 1)] "" [("a", Value.num 2)]
      ≠ addEntriesList [("a", Value.num 1)] [("a", Value.num 2)] := by
  refine ⟨rfl, rfl, ?_⟩
  intro h
  have hlen : (1 : Nat) = 2 := congrArg List.length h
  exact absurd hlen (by decide)

/-- C4 (amended): the empty-scope merge is Python dict-spread; it coincides
with calling the parent's `add_entry` once per child entry exactly when no
child key is already a parent key (child keys are pairwise distinct, as any
real child mapping's are); in that case both equal appending the child's
entries in order. -/
theorem C4_unscoped_merge (plogs clog : Logs) (hnd : (keysOf clog).Nodup)
    (hdisj : ∀ k ∈ keysOf clog, k ∉ keysOf plogs) :
    merge plogs "" clog = addEntriesList plogs clog ∧
    merge plogs "" clog = plogs ++ clog := by
  have hm : merge plogs "" clog = dictUnion plogs clog := by
    unfold merge
    rw [if_pos rfl]
  rw [hm, dictUnion_disjoint clog plogs hnd hdisj,
    addEntriesList_disjoint clog plogs hnd hdisj]
  exact ⟨rfl, rfl⟩

/-- C4, witness for the amended theorem on concrete disjoint mappings. -/
theorem C4_unscoped_merge_witness :
    merge [("a", Value.num 1)] "" [("b", Value.num 2), ("c", Value.num 3)]
      = addEntriesList [("a", Value.num 1)]
          [("b", Value.num 2), ("c", Value.num 3)] ∧
    merge [("a", Value.num 1)] "" [("b", Value.num 2), ("c", Value.num 3)]
      = [("a", Value.num 1)] ++ [("b", Value.num 2), ("c", Value.num 3)] := by
  have h := C4_unscoped_merge [("a", Value.num 1)]
    [("b", Value.num 2), ("c", Value.num 3)]
    (by simp [keysOf]) (by simp [keysOf])
  exact h

/-- C5, counterexample.  The three bookkeeping entries go through the same
`add_entry` disambiguation as every insertion: a logger whose mapping
already has a `"start"` key gets its construction timestamp appended under
`"start-1"`, not `"start"` — so exit does not always append entries keyed
exactly `start`/`end`/`dt`. -/
theorem C5_exit_counterexample :
    exitLogs startTakenSt "T1" (Value.num 7)
      = [("start", Value.str "X"), ("start-1", Value.str "T0"),
         ("end", Value.str "T1"), ("dt", Value.num 7)] := rfl

/-- C5 (amended): scope exit appends exactly three entries, in order, whose
values are the construction wall-clock string, the exit wall-clock string
and the elapsed duration; their keys are `start`/`end`/`dt` whenever those
keys are not already taken (otherwise suffix-disambiguated).  A root logger
then saves the full mapping as `telemetry.json`; a logger with a parent
merges into it and saves nothing. -/
theorem C5_exit (st : LoggerState) (endTs : String) (dtv : Value) :
    (exitLogs st endTs dtv).length = st.logs.length + 3 ∧
    ("start" ∉ keysOf st.logs → "end" ∉ keysOf st.logs →
      "dt" ∉ keysOf st.logs →
      exitLogs st endTs dtv = st.logs ++ [("start", .str st.timestamp),
        ("end", .str endTs), ("dt", dtv)]) ∧
    loggerExit st none endTs dtv
      = .savedJson "telemetry.json" (exitLogs st endTs dtv) ∧
    (∀ plogs, loggerExit st (some plogs) endTs dtv
      = .merged (merge plogs st.scope (exitLogs st endTs dtv))) :=
  ⟨exitLogs_length st endTs dtv, exitLogs_fresh st endTs dtv,
    rfl, fun _ => rfl⟩

/-- C5, witness: a concrete root logger exit. -/
theorem C5_exit_witness :
    exitLogs rootSt "T1" (Value.num 7)
      = [("foo", Value.str "bar")] ++ [("start", Value.str "T0"),
          ("end", Value.str "T1"), ("dt", Value.num 7)] ∧
    loggerExit rootSt none "T1" (Value.num 7)
      = ExitEffect.savedJson "telemetry.json"
          (exitLogs rootSt "T1" (Value.num 7)) := by
  have h := C5_exit rootSt "T1" (Value.num 7)
  exact ⟨h.2.1 (by simp [rootSt, keysOf]) (by simp [rootSt, keysOf])
    (by simp [rootSt, keysOf]), h.2.2.1⟩

/-- C6: a successful `log_func` call returns the callable's result
unchanged, records exactly one entry — key disambiguated from the
callable's name, value the mapping `{dt, params}` — leaves every existing
entry intact, and bumps the step counter by one whatever the positional
arguments were; a raising call propagates the error. -/
theorem C6_log_func {ε α : Type} (st : LoggerState) (funcName : String)
    (args : List Value) (kwargs : Logs) (dtv : Value) :
    (∀ r : α, logFuncCall (ε := ε) st funcName args kwargs (Except.ok r) dtv
      = Except.ok (logFunc st funcName kwargs dtv, r)) ∧
    (logFunc st funcName kwargs dtv).logs.length = st.logs.length + 1 ∧
    (logFunc st funcName kwargs dtv).stepCounter = st.stepCounter + 1 ∧
    (funcName ∉ keysOf st.logs →
      (logFunc st funcName kwargs dtv).logs = st.logs ++ [(funcName,
        .dict [("dt", dtv), ("params", .dict kwargs)])]) ∧
    (∀ k', k' ∈ keysOf st.logs →
      lookupLog (logFunc st funcName kwargs dtv).logs k'
        = lookupLog st.logs k') ∧
    (∀ e : ε, logFuncCall (α := α) st funcName args kwargs (Except.error e) dtv
      = Except.error e) := by
  refine ⟨fun r => rfl, ?_, rfl, ?_, ?_, fun e => rfl⟩
  · exact length_add_entry st.logs funcName _
  · intro h
    show add_entry st.logs funcName _ = _
    rw [add_entry_not_mem st.logs funcName _ h]
  · intro k' hk'
    exact lookupLog_add_entry_preserved st.logs funcName _ k' hk'

/-- C6, witness: one concrete successful call and one raising call. -/
theorem C6_log_func_witness :
    logFuncCall (ε := String) rootSt "f" [] [("x", Value.num 1)]
        (Except.ok (42 : Nat)) (Value.num 3)
      = Except.ok (logFunc rootSt "f" [("x", Value.num 1)] (Value.num 3), 42) ∧
    (logFunc rootSt "f" [("x", Value.num 1)] (Value.num 3)).logs
      = [("foo", Value.str "bar")] ++ [("f", Value.dict
          [("dt", Value.num 3), ("params", Value.dict [("x", Value.num 1)])])] ∧
    logFuncCall (α := Nat) rootSt "f" [] [("x", Value.num 1)]
        (Except.error "boom") (Value.num 3)
      = Except.error "boom" := by
  have h := C6_log_func (ε := String) (α := Nat) rootSt "f" []
    [("x", Value.num 1)] (Value.num 3)
  exact ⟨h.1 42, h.2.2.2.1 (by simp [rootSt, keysOf]), h.2.2.2.2.2 "boom"⟩

/-- C7: the step counter starts at 1 and reaches `N + 1` after `N` timed
calls; a step-prefixed artifact filename is then the zero-padded decimal of
`N + 1` followed by `-`: `01`, …, `09`, `10`, …, and the full (untruncated)
decimal once it outgrows two digits. -/
theorem C7_step_counter_prefix (scope ts : String) :
    (initLogger scope ts).stepCounter = 1 ∧
    (∀ (st : LoggerState) (calls : List (String × Logs × Value)),
      (runLogFuncs st calls).stepCounter = st.stepCounter + calls.length) ∧
    (∀ (calls : List (String × Logs × Value)) (name ext : String),
      saveFilename (runLogFuncs (initLogger scope ts) calls).stepCounter
          name ext true
        = stepCounterToString (calls.length + 1) ++ "-" ++ name ++ "." ++ ext) ∧
    (∀ c, c < 10 → stepCounterToString c = "0" ++ natToString c) ∧
    (∀ c, 10 ≤ c → stepCounterToString c = natToString c) ∧
    (∀ c, 1 ≤ c → 2 ≤ (stepCounterToString c).length) ∧
    (∀ c, 100 ≤ c → 3 ≤ (stepCounterToString c).length) := by
  have hlt : ∀ c, c < 10 → stepCounterToString c = "0" ++ natToString c := by
    intro c hc
    unfold stepCounterToString
    rw [if_pos hc]
  have hge : ∀ c, 10 ≤ c → stepCounterToString c = natToString c := by
    intro c hc
    unfold stepCounterToString
    rw [if_neg (by omega)]
    exact String.empty_append _
  have hlen2 : ∀ c, 1 ≤ c → 2 ≤ (stepCounterToString c).length := by
    intro c hc
    by_cases h10 : c < 10
    · rw [hlt c h10, String.length_append]
      have := natToString_length_pos c
      have h0 : ("0" : String).length = 1 := rfl
      omega
    · rw [hge c (by omega), natToString_length c (by omega)]
      exact natDigits_length_ge_two c (by omega)
  refine ⟨rfl, fun st calls => runLogFuncs_stepCounter calls st, ?_,
    hlt, hge, hlen2, ?_⟩
  · intro calls name ext
    have hc : (runLogFuncs (initLogger scope ts) calls).stepCounter
        = calls.length + 1 := by
      rw [runLogFuncs_stepCounter calls (initLogger scope ts)]
      show 1 + calls.length = calls.length + 1
      omega
    unfold saveFilename
    rw [hc, if_pos rfl]
  · intro c hc
    rw [hge c (by omega), natToString_length c (by omega)]
    exact natDigits_length_ge_three c hc

/-- C7, witness: concrete counters 1 (two digits), and 100 (three digits,
untruncated), plus a prefixed filename after one timed call. -/
theorem C7_step_counter_prefix_witness :
    saveFilename (runLogFuncs (initLogger "" "T")
        [("f", [], Value.num 1)]).stepCounter "model" "joblib" true
      = stepCounterToString (1 + 1) ++ "-" ++ "model" ++ "." ++ "joblib" ∧
    stepCounterToString 2 = "0" ++ natToString 2 ∧
    stepCounterToString 100 = natToString 100 ∧
    stepCounterToString 2 = "02" ∧
    stepCounterToString 100 = "100" := by
  have h := C7_step_counter_prefix "" "T"
  exact ⟨h.2.2.1 [("f", [], Value.num 1)] "model" "joblib",
    h.2.2.2.1 2 (by omega), h.2.2.2.2.1 100 (by omega), rfl, rfl⟩

/-- C8: the JSON encoder serializes a numpy array with fewer than 20
elements in full (its `tolist()` nesting), and one with 20 or more elements
as the string `shape:` followed by the Python rendering of its shape
tuple. -/
theorem C8_numpy_array_encoding (shape : List Nat) (asList : JVal) :
    (shape.prod < 20 → encoderDefault (.npArr shape asList) = .ok asList) ∧
    (20 ≤ shape.prod → encoderDefault (.npArr shape asList)
      = .ok (.jstr ("shape:" ++ pyTupleStr shape))) := by
  constructor
  · intro h
    show (if shape.prod < 20 then Except.ok asList
        else Except.ok (JVal.jstr ("shape:" ++ pyTupleStr shape)))
      = Except.ok asList
    rw [if_pos h]
  · intro h
    show (if shape.prod < 20 then Except.ok asList
        else Except.ok (JVal.jstr ("shape:" ++ pyTupleStr shape)))
      = Except.ok (JVal.jstr ("shape:" ++ pyTupleStr shape))
    rw [if_neg (by omega)]

/-- C8, witness: a 2×3 array is emitted in full, a 4×5 array as its shape
string, which renders as `shape:(4, 5)`. -/
theorem C8_numpy_array_encoding_witness :
    encoderDefault (.npArr [2, 3] (.jarr [.jnum 1]))
      = .ok (.jarr [.jnum 1]) ∧
    encoderDefault (.npArr [4, 5] (.jarr []))
      = .ok (.jstr ("shape:" ++ pyTupleStr [4, 5])) ∧
    ("shape:" ++ pyTupleStr [4, 5]) = "shape:(4, 5)" := by
  refine ⟨?_, ?_, rfl⟩
  · exact (C8_numpy_array_encoding [2, 3] (.jarr [.jnum 1])).1 (by decide)
  · exact (C8_numpy_array_encoding [4, 5] (.jarr [])).2 (by decide)

/-- C9, counterexample.  A value with no `__name__` attribute (e.g. a plain
`object()` instance) reaches the base encoder, which raises — the encoder
does not fall back to a type-name string for it. -/
theorem C9_fallback_counterexample :
    encoderDefault (PyObj.plain "object")
      = Except.error "Object of type object is not JSON serializable" := rfl

/-- C9 (amended): a value the other checks do not recognize is represented
by its own `__name__` attribute when it has one (so a function or class is
rendered by its name, not by the name of its type); a value without
`__name__` is passed to the base encoder, which raises a serialization
error. -/
theorem C9_name_fallback (n t : String) :
    encoderDefault (PyObj.withAttrName n) = .ok (.jstr n) ∧
    encoderDefault (PyObj.plain t)
      = .error ("Object of type " ++ t ++ " is not JSON serializable") :=
  ⟨rfl, rfl⟩

/-- C10: if the wrapped callable raises, `log_func` propagates the error
with no bookkeeping — in this pure embedding no successor state is
produced, so no entry is recorded and the counter is not bumped; moreover a
successful result can only arise from a successful call, with exactly the
one-entry state update. -/
theorem C10_log_func_error_atomicity {ε α : Type} (st : LoggerState)
    (funcName : String) (args : List Value) (kwargs : Logs) (e : ε)
    (dtv : Value) :
    logFuncCall (α := α) st funcName args kwargs (Except.error e) dtv
      = Except.error e ∧
    (∀ (call : Except ε α) (st' : LoggerState) (r : α),
      logFuncCall st funcName args kwargs call dtv = Except.ok (st', r) →
      call = Except.ok r ∧ st' = logFunc st funcName kwargs dtv) := by
  refine ⟨rfl, ?_⟩
  intro call st' r h
  cases call with
  | error e' => exact Except.noConfusion h
  | ok r' =>
    have h' : (logFunc st funcName kwargs dtv, r') = (st', r) :=
      Except.ok.inj h
    obtain ⟨h₁, h₂⟩ := Prod.mk.injEq .. ▸ h'
    exact ⟨by rw [h₂], h₁.symm⟩

/-- C10, witness: a concrete raising call propagates its error, and a
concrete successful call is traced back to its successful outcome. -/
theorem C10_log_func_error_atomicity_witness :
    logFuncCall (α := Nat) rootSt "f" [] [] (Except.error "boom")
        (Value.num 1)
      = Except.error "boom" ∧
    (Except.ok (5 : Nat) : Except String Nat) = Except.ok (5 : Nat) ∧
    logFunc rootSt "f" [] (Value.num 1) = logFunc rootSt "f" [] (Value.num 1) := by
  have h := C10_log_func_error_atomicity (ε := String) (α := Nat) rootSt "f"
    [] [] "boom" (Value.num 1)
  have h2 := h.2 (Except.ok 5) (logFunc rootSt "f" [] (Value.num 1)) 5 rfl
  exact ⟨h.1, h2.1, by rw [h2.2]⟩

end Austen
